import Mathlib

/-!
# Verification of the django-channels-chat repository

Shallow embedding of the repository's Python sources and of the spec's
Room Registry / Pub-Sub Bridge / Connection Session core (which the
repository's source excerpt does not contain), together with theorems
settling the frozen claims.

Embedded source files:
  * `canal/canal/channel_layers.py` (environment-driven channel-layer settings)
  * `canal/chat/views.py` (the `room` template view)
The room-name validation, Room Registry, Pub/Sub Bridge, Connection
Session state machine and reconnection backoff are modelled from the
spec, since the corresponding code is not part of the source excerpt.
-/

namespace Canal

/- ### Python `json.dumps` on strings (stdlib model, `ensure_ascii=True`)

`json.dumps` on a `str` emits a double-quoted literal.  Characters
`0x20..0x7e` other than `"` and `\` are copied verbatim; `"` `\` and the
control characters BS FF LF CR TAB use two-character escapes; every other
character is escaped as `\uXXXX` (lowercase hex), using a UTF-16
surrogate pair for code points above `0xFFFF`. -/

/-- Lowercase hexadecimal digit for `n < 16`, as Python's `"%04x"` prints. -/
def hexDigitChar (n : Nat) : Char :=
  if n < 10 then Char.ofNat (48 + n) else Char.ofNat (87 + n)

/-- Four lowercase hex digits of `n < 0x10000`, most significant first. -/
def hex4 (n : Nat) : List Char :=
  [hexDigitChar (n / 4096 % 16), hexDigitChar (n / 256 % 16),
   hexDigitChar (n / 16 % 16), hexDigitChar (n % 16)]

/-- Encoding of one character of a Python string by `json.dumps`
(`ensure_ascii=True`, the default used by `views.py`). -/
def encodeChar (c : Char) : List Char :=
  if c = '"' then ['\\', '"']
  else if c = '\\' then ['\\', '\\']
  else if c = Char.ofNat 8 then ['\\', 'b']
  else if c = Char.ofNat 12 then ['\\', 'f']
  else if c = Char.ofNat 10 then ['\\', 'n']
  else if c = Char.ofNat 13 then ['\\', 'r']
  else if c = Char.ofNat 9 then ['\\', 't']
  else if 0x20 ≤ c.toNat ∧ c.toNat ≤ 0x7e then [c]
  else if c.toNat < 0x10000 then '\\' :: 'u' :: hex4 c.toNat
  else
    ('\\' :: 'u' :: hex4 (0xD800 + (c.toNat - 0x10000) / 1024)) ++
    ('\\' :: 'u' :: hex4 (0xDC00 + (c.toNat - 0x10000) % 1024))

/-- `json.dumps` restricted to strings: a quoted, escaped literal. -/
def dumps (s : String) : String :=
  ⟨'"' :: (s.data.map encodeChar).flatten ++ ['"']⟩

/-- Numeric value of one hex digit, upper or lower case (as accepted by
Python's `json` string scanner). -/
def hexVal (c : Char) : Option Nat :=
  if '0' ≤ c ∧ c ≤ '9' then some (c.toNat - 48)
  else if 'a' ≤ c ∧ c ≤ 'f' then some (c.toNat - 87)
  else if 'A' ≤ c ∧ c ≤ 'F' then some (c.toNat - 55)
  else none

/-- Value of a four-hex-digit `\uXXXX` escape body. -/
def decodeU (a b c d : Char) : Option Nat :=
  match hexVal a, hexVal b, hexVal c, hexVal d with
  | some va, some vb, some vc, some vd =>
      some (va * 4096 + vb * 256 + vc * 16 + vd)
  | _, _, _, _ => none

/-- Two-character escapes recognised by the Python `json` string scanner. -/
def escChar (c : Char) : Option Char :=
  if c = '"' then some '"'
  else if c = '\\' then some '\\'
  else if c = '/' then some '/'
  else if c = 'b' then some (Char.ofNat 8)
  else if c = 'f' then some (Char.ofNat 12)
  else if c = 'n' then some (Char.ofNat 10)
  else if c = 'r' then some (Char.ofNat 13)
  else if c = 't' then some (Char.ofNat 9)
  else none

/-- Decoding of one `\uXXXX` escape by the Python `json` string scanner
(the input starts at the first hex digit): a high surrogate must be
followed by a low-surrogate escape and the pair is recombined, as
`json.py`'s `py_scanstring` does.  Returns the decoded character and how
many input characters were consumed (4, or 10 for a surrogate pair).
Lean's `Char` cannot carry lone surrogates, so inputs that would decode
to one are rejected rather than mapped to a replacement value; no output
of `dumps` on a Lean string is affected. -/
def uEsc : List Char → Option (Char × Nat)
  | a :: b :: c3 :: d :: rest3 =>
    (decodeU a b c3 d).bind (fun n =>
      if n < 0xD800 ∨ 0xE000 ≤ n then some (Char.ofNat n, 4)
      else if n < 0xDC00 then
        match rest3 with
        | e2 :: f2 :: a2 :: b2 :: c4 :: d2 :: _ =>
          if e2 = '\\' ∧ f2 = 'u' then
            (decodeU a2 b2 c4 d2).bind (fun m =>
              if 0xDC00 ≤ m ∧ m < 0xE000 then
                some (Char.ofNat (0x10000 + (n - 0xD800) * 1024 + (m - 0xDC00)), 10)
              else none)
          else none
        | _ => none
      else none)
  | _ => none

/-- Body of the Python `json` string scanner (strict mode): the input is
everything after the opening quote; scanning succeeds only when the
closing quote ends the input (`loads` rejects trailing data).  Raw
control characters are rejected (strict mode), two-character escapes go
through ` escChar`, and `\u` escapes through `uEsc`. -/
def scanString : List Char → Option (List Char)
  | [] => none
  | c :: rest =>
    if c = '"' then (if rest = [] then some [] else none)
    else if c = '\\' then
      match rest with
      | [] => none
      | e :: rest2 =>
        if e = 'u' then
          match uEsc rest2 with
          | some (ch, k) => (scanString (rest2.drop k)).map (fun t => ch :: t)
          | none => none
        else
          match escChar e with
          | some d => (scanString rest2).map (fun t => d :: t)
          | none => none
    else if c.toNat < 0x20 then none
    else (scanString rest).map (fun t => c :: t)
termination_by l => l.length
decreasing_by
  · simp [List.length_drop]
    omega
  · simp
    omega
  · simp

/-- `json.loads` restricted to a single string literal with no
surrounding whitespace (the only shape `dumps` produces). -/
def loads (s : String) : Option String :=
  match s.data with
  | '"' :: rest => (scanString rest).map (fun l => ⟨l⟩)
  | _ => none

/- ### `canal/chat/views.py` -/

/-- The value returned by Django's `render`: the template it renders and
the context it passes.  The `request` argument does not influence either
field for this view, so it is omitted from the embedding. -/
structure HttpResponse where
  template : String
  context : List (String × String)
deriving DecidableEq

/-- `views.room`: renders `chat/room.html` with the raw room name and its
JSON encoding in the context. -/
def room (room_name : String) : HttpResponse :=
  { template := "chat/room.html",
    context := [("room_name", room_name), ("room_name_json", dumps room_name)] }

/- ### Python `int()` on strings (stdlib model)

`int` strips ASCII whitespace, accepts one optional sign, and then a
run of decimal digits in which single underscores may separate digits
(`int("6_379") = 6379`); anything else raises `ValueError`. -/

/-- Whitespace characters stripped by Python's `int`. -/
def pySpace (c : Char) : Bool :=
  c = ' ' ∨ c = Char.ofNat 9 ∨ c = Char.ofNat 10 ∨ c = Char.ofNat 13 ∨
  c = Char.ofNat 11 ∨ c = Char.ofNat 12

/-- Strip leading and trailing whitespace. -/
def pyStrip (l : List Char) : List Char :=
  ((l.dropWhile pySpace).reverse.dropWhile pySpace).reverse

/-- After an initial digit: digits, optionally separated by single
underscores, up to the end of the literal. -/
def digitTail : List Char → Bool
  | [] => true
  | '_' :: rest =>
    match rest with
    | c :: rest2 => c.isDigit && digitTail rest2
    | [] => false
  | c :: rest => c.isDigit && digitTail rest

/-- A valid unsigned decimal integer literal body: nonempty, starts with
a digit, underscores only between digits. -/
def decLiteral : List Char → Bool
  | [] => false
  | c :: rest => c.isDigit && digitTail rest

/-- Numeric value of a literal body, skipping underscores. -/
def decValue (l : List Char) : Nat :=
  l.foldl (fun acc c => if c = '_' then acc else acc * 10 + (c.toNat - 48)) 0

/-- Unsigned part of `int`: `some` value iff the body is a valid literal. -/
def pyIntBody (l : List Char) : Option Nat :=
  if decLiteral l then some (decValue l) else none

/-- Python's `int` applied to a string: `some` the value, or `none` when
`int` raises `ValueError`. -/
def pyInt (s : String) : Option Int :=
  match pyStrip s.data with
  | '+' :: rest => (pyIntBody rest).map (fun n => (n : Int))
  | '-' :: rest => (pyIntBody rest).map (fun n => -(n : Int))
  | rest => (pyIntBody rest).map (fun n => (n : Int))

/- ### `canal/canal/channel_layers.py` -/

/-- One entry of the `CHANNEL_LAYERS` dict: the backend dotted path and
the `CONFIG.hosts` list. -/
structure LayerConfig where
  backend : String
  hosts : List (String × Int)
deriving DecidableEq

/-- Loading the `channel_layers` module under environment `env`
(`env k` is `os.environ.get(k)`).  `REDIS_HOST` defaults to `"redis"`;
`REDIS_PORT` is `int(os.environ.get("REDIS_PORT", 6379))`, so an unset
variable yields `int 6379 = 6379` and a set one goes through `int`,
whose `ValueError` aborts the module load. -/
def channelLayersSettings (env : String → Option String) :
    Except String (List (String × LayerConfig)) :=
  let redisHost := (env "REDIS_HOST").getD "redis"
  match env "REDIS_PORT" with
  | none =>
    Except.ok
      [("default",
        { backend := "channels_redis.core.RedisChannelLayer",
          hosts := [(redisHost, 6379)] })]
  | some s =>
    match pyInt s with
    | some p =>
      Except.ok
        [("default",
          { backend := "channels_redis.core.RedisChannelLayer",
            hosts := [(redisHost, p)] })]
    | none => Except.error "ValueError"

/-- The integer value the settings assign to `REDIS_PORT`, when the
module loads: `6379` when the variable is unset, otherwise `int` of its
value. -/
def redisPortOf (env : String → Option String) : Option Int :=
  match env "REDIS_PORT" with
  | none => some 6379
  | some s => pyInt s

/- ### Room-name validation (modelled from the spec) -/

/-- Modelled from the spec: membership in the character class
`[A-Za-z0-9_-]` of the room-identifier pattern.  The URL configuration
(`chat/urls.py`) that performs this matching is not part of the source
excerpt. -/
def isRoomChar (c : Char) : Bool :=
  ('A' ≤ c && c ≤ 'Z') || ('a' ≤ c && c ≤ 'z') || ('0' ≤ c && c ≤ '9') ||
  c = '_' || c = '-'

/-- Modelled from the spec: the room identifier is a single path segment
validated as `[A-Za-z0-9_-]{1,128}`. -/
def validRoomName (s : String) : Bool :=
  decide (1 ≤ s.length) && decide (s.length ≤ 128) && s.data.all isRoomChar

/-- The regex `[A-Za-z0-9_-]{1,128}` spelled out declaratively, for
comparison with the executable validator: between 1 and 128 characters,
each a Latin letter, digit, underscore or hyphen. -/
def MatchesRoomPattern (s : String) : Prop :=
  s.data ≠ [] ∧ s.data.length ≤ 128 ∧
  ∀ c ∈ s.data,
    ('A' ≤ c ∧ c ≤ 'Z') ∨ ('a' ≤ c ∧ c ≤ 'z') ∨ ('0' ≤ c ∧ c ≤ '9') ∨
    c = '_' ∨ c = '-'

/-- Modelled from the spec: the request path carrying a room identifier
is routed to the room view only when the identifier validates; any other
name is rejected (`none`) before a page is rendered. -/
def handleRoomRequest (roomName : String) : Option HttpResponse :=
  if validRoomName roomName then some (room roomName) else none

/- ### Room Registry (modelled from the spec) -/

/-- Modelled from the spec: the Room Registry's state, a dictionary from
room name to the list of member connection identifiers.  Not present in
the source excerpt. -/
abbrev Registry : Type := List (String × List Nat)

/-- `membersOf(room)`: snapshot of the member set (empty for an absent
room). -/
def membersOf (reg : Registry) (r : String) : List Nat :=
  match List.lookup r reg with
  | some ms => ms
  | none => []

/-- Registry well-formedness: one entry per room name and no dangling
empty rooms — exactly the states the registry operations produce. -/
def WFReg (reg : Registry) : Prop :=
  (List.map Prod.fst reg).Nodup ∧ ∀ p ∈ reg, p.2 ≠ []

instance (reg : Registry) : Decidable (WFReg reg) := by
  unfold WFReg; exact instDecidableAnd

/-- Modelled from the spec: the mutation performed by a successful
`join` — add the connection to the room's member set, creating the entry
if absent, a no-op when already a member. -/
def joinAdd (r : String) (c : Nat) : Registry → Registry
  | [] => [(r, [c])]
  | (k, ms) :: rest =>
    if k = r then (if c ∈ ms then (k, ms) :: rest else (k, ms ++ [c]) :: rest)
    else (k, ms) :: joinAdd r c rest

/-- Registry errors: `join` fails with `InvalidRoomName` when the name
fails validation. -/
inductive RegError where
  | InvalidRoomName
deriving DecidableEq

/-- Modelled from the spec: `join(room, connectionId)`, validating the
room name first. -/
def join (r : String) (c : Nat) (reg : Registry) : Except RegError Registry :=
  if validRoomName r then Except.ok (joinAdd r c reg) else Except.error RegError.InvalidRoomName

/-- Modelled from the spec: `leave(room, connectionId)` removes the
connection; an entry whose member set becomes empty is deleted; a total
function (never fails, no-op for a non-member). -/
def leave (r : String) (c : Nat) : Registry → Registry
  | [] => []
  | (k, ms) :: rest =>
    if k = r then
      (if ms.filter (fun x => x ≠ c) = [] then leave r c rest
       else (k, ms.filter (fun x => x ≠ c)) :: leave r c rest)
    else (k, ms) :: leave r c rest

/- ### Pub/Sub Bridge fan-out (modelled from the spec) -/

/-- Modelled from the spec: a message — room, sender, payload,
timestamp — immutable once constructed.  Not present in the source
excerpt. -/
structure Message where
  roomName : String
  sender : Nat
  payload : String
  timestamp : Nat
deriving DecidableEq

/-- Modelled from the spec: the bridge's local subscription table, room
name → registered local handler identifiers (one per subscribed
connection).  Shares the association-list shape of the Room Registry,
which it mirrors. -/
abbrev Subs : Type := List (String × List Nat)

/-- Bridge well-formedness: each handler is registered at most once per
room (subscribe is a no-op for an already-registered handler). -/
def WFSubs (subs : Subs) : Prop := ∀ p ∈ subs, p.2.Nodup

instance (subs : Subs) : Decidable (WFSubs subs) := by
  unfold WFSubs; exact List.decidableBAll _ _

/-- Modelled from the spec: the local fan-out of one delivered message —
the room's registered handlers each receive the message once. -/
def fanout (subs : Subs) (r : String) (m : Message) : List (Nat × Message) :=
  (membersOf subs r).map (fun h => (h, m))

/- ### Connection Session state machine (modelled from the spec) -/

/-- Modelled from the spec: the liveness states of a connection. -/
inductive SessionState where
  | CONNECTING
  | OPEN
  | CLOSING
  | CLOSED
deriving DecidableEq

/-- Modelled from the spec: the shared state the sessions, the Room
Registry and the Pub/Sub Bridge coordinate through — per-connection
session state (with the owning room), the registry's membership map and
the bridge's local subscriptions. -/
structure SysState where
  sessions : Nat → Option (SessionState × String)
  registry : Registry
  subs : Subs

/-- Modelled from the spec: the transitions of the system.  Entering
CLOSED (from CONNECTING on a failed open, or from CLOSING) performs the
Room Registry `leave` and the Pub/Sub Bridge `unsubscribe` in the same
transition, and CLOSED is terminal, so the cleanup runs exactly once. -/
inductive Step : SysState → SysState → Prop where
  | startConnect (s : SysState) (c : Nat) (r : String)
      (h : s.sessions c = none) :
      Step s
        { sessions := fun x => if x = c then some (SessionState.CONNECTING, r) else s.sessions x,
          registry := s.registry, subs := s.subs }
  | openOk (s : SysState) (c : Nat) (r : String)
      (h : s.sessions c = some (SessionState.CONNECTING, r))
      (hv : validRoomName r = true) :
      Step s
        { sessions := fun x => if x = c then some (SessionState.OPEN, r) else s.sessions x,
          registry := joinAdd r c s.registry, subs := joinAdd r c s.subs }
  | openFail (s : SysState) (c : Nat) (r : String)
      (h : s.sessions c = some (SessionState.CONNECTING, r)) :
      Step s
        { sessions := fun x => if x = c then some (SessionState.CLOSED, r) else s.sessions x,
          registry := leave r c s.registry, subs := leave r c s.subs }
  | closeReq (s : SysState) (c : Nat) (r : String)
      (h : s.sessions c = some (SessionState.OPEN, r)) :
      Step s
        { sessions := fun x => if x = c then some (SessionState.CLOSING, r) else s.sessions x,
          registry := s.registry, subs := s.subs }
  | finishClose (s : SysState) (c : Nat) (r : String)
      (h : s.sessions c = some (SessionState.CLOSING, r)) :
      Step s
        { sessions := fun x => if x = c then some (SessionState.CLOSED, r) else s.sessions x,
          registry := leave r c s.registry, subs := leave r c s.subs }

/-- The empty initial system: no sessions, no members, no subscriptions. -/
def initState : SysState :=
  { sessions := fun _ => none, registry := [], subs := [] }

/-- States reachable by any sequence of transitions from the initial
system. -/
def Reachable (s : SysState) : Prop :=
  Relation.ReflTransGen Step initState s

/-- The inductive invariant of the system: the registry is well formed,
and every member of a room is a session in state OPEN or CLOSING whose
owning room is that room. -/
def InvS (s : SysState) : Prop :=
  WFReg s.registry ∧
  ∀ r c, c ∈ membersOf s.registry r →
    ∃ st, s.sessions c = some (st, r) ∧
      (st = SessionState.OPEN ∨ st = SessionState.CLOSING)

/-- Connection 0 mid-handshake into room "lobby". -/
def demoState1 : SysState :=
  { sessions := fun x =>
      if x = 0 then some (SessionState.CONNECTING, "lobby") else initState.sessions x,
    registry := initState.registry, subs := initState.subs }

/-- Connection 0 open in room "lobby", registered and subscribed. -/
def demoState2 : SysState :=
  { sessions := fun x =>
      if x = 0 then some (SessionState.OPEN, "lobby") else demoState1.sessions x,
    registry := joinAdd "lobby" 0 demoState1.registry,
    subs := joinAdd "lobby" 0 demoState1.subs }

/- ### Reconnection backoff (modelled from the spec) -/

/-- Modelled from the spec: one backoff step of the bridge's reconnect
loop — double the previous delay, capped at 5000 ms. -/
def nextDelay (d : Nat) : Nat := min (2 * d) 5000

/-- Modelled from the spec: the delay in milliseconds before the n-th
reconnection attempt (1-indexed; base 200 ms, cap 5000 ms, unbounded
retries).  `backoffDelay 0` is unused. -/
def backoffDelay : Nat → Nat
  | 0 => 0
  | 1 => 200
  | n + 2 => nextDelay (backoffDelay (n + 1))

/-! ## Theorems -/

/-- The executable validator agrees with the declarative reading of the
pattern `[A-Za-z0-9_-]{1,128}`. -/
theorem validRoomName_iff (s : String) :
    validRoomName s = true ↔ MatchesRoomPattern s := by
  unfold validRoomName MatchesRoomPattern isRoomChar
  rw [Bool.and_eq_true, Bool.and_eq_true, List.all_eq_true]
  simp only [decide_eq_true_eq, Bool.or_eq_true, Bool.and_eq_true,
    String.length]
  constructor
  · rintro ⟨⟨h1, h2⟩, h3⟩
    refine ⟨?_, h2, ?_⟩
    · cases hd : s.data with
      | nil => rw [hd] at h1; simp at h1
      | cons a t => simp
    · intro c hc
      have := h3 c hc
      simp only [decide_eq_true_eq, Bool.or_eq_true, Bool.and_eq_true] at this
      tauto
  · rintro ⟨h1, h2, h3⟩
    refine ⟨⟨?_, h2⟩, ?_⟩
    · have : 0 < s.data.length := List.length_pos.mpr h1
      omega
    · intro c hc
      have := h3 c hc
      tauto

/-- C1: a request carrying a room identifier is served a room page iff
the identifier matches `[A-Za-z0-9_-]{1,128}` (one non-empty segment of
at most 128 letters, digits, underscores or hyphens); every other name
is rejected before any page is produced. -/
theorem roomRequest_accepts_iff_pattern (s : String) :
    (∃ resp, handleRoomRequest s = some resp) ↔ MatchesRoomPattern s := by
  unfold handleRoomRequest
  rw [← validRoomName_iff]
  by_cases h : validRoomName s = true
  · simp [h]
  · simp [h]

/-- C3: for every room name, the `room` view renders the
`chat/room.html` template with a context carrying the room name (and its
JSON encoding); the view is total, returning this page for every room
name. -/
theorem room_view_renders (s : String) :
    room s =
      { template := "chat/room.html",
        context := [("room_name", s), ("room_name_json", dumps s)] } ∧
    (room s).context.lookup "room_name" = some s := ⟨rfl, rfl⟩

/-- C2: whenever the `REDIS_PORT` variable has an integer value (or is
unset, defaulting to 6379), the loaded `CHANNEL_LAYERS` maps
`"default"` to the `channels_redis.core.RedisChannelLayer` backend whose
single host pair is the `REDIS_HOST` value (default `"redis"`) and that
port. -/
theorem channelLayers_env_config (env : String → Option String) (n : Int)
    (h : redisPortOf env = some n) :
    channelLayersSettings env =
      Except.ok
        [("default",
          { backend := "channels_redis.core.RedisChannelLayer",
            hosts := [((env "REDIS_HOST").getD "redis", n)] })] := by
  unfold redisPortOf at h
  cases henv : env "REDIS_PORT" with
  | none =>
    rw [henv] at h
    have h2 : some (6379 : Int) = some n := h
    injection h2 with h2
    subst h2
    simp [channelLayersSettings, henv]
  | some s =>
    rw [henv] at h
    have h2 : pyInt s = some n := h
    simp [channelLayersSettings, henv, h2]

/-- Witness for `channelLayers_env_config` at the empty environment. -/
theorem channelLayers_env_config_witness :
    redisPortOf (fun _ => none) = some 6379 ∧
    channelLayersSettings (fun _ => none) =
      Except.ok
        [("default",
          { backend := "channels_redis.core.RedisChannelLayer",
            hosts := [("redis", 6379)] })] :=
  ⟨rfl, channelLayers_env_config (fun _ => none) 6379 rfl⟩

/-- C10: loading the settings is total exactly under the precondition
that `REDIS_PORT`, when set, is an integer literal: a set non-numeric
value makes `int` raise and the module load fail, and under the
precondition the error branch is unreachable (the load returns a
configuration). -/
theorem redis_port_int_guard (env : String → Option String) (s : String) :
    (env "REDIS_PORT" = some s → pyInt s = none →
      channelLayersSettings env = Except.error "ValueError") ∧
    (redisPortOf env ≠ none →
      ∃ cfg, channelLayersSettings env = Except.ok cfg) := by
  constructor
  · intro henv hint
    simp [channelLayersSettings, henv, hint]
  · intro h
    unfold redisPortOf at h
    cases henv : env "REDIS_PORT" with
    | none =>
      refine ⟨[("default",
        { backend := "channels_redis.core.RedisChannelLayer",
          hosts := [((env "REDIS_HOST").getD "redis", 6379)] })], ?_⟩
      simp [channelLayersSettings, henv]
    | some v =>
      rw [henv] at h
      have h2 : pyInt v ≠ none := h
      cases hv : pyInt v with
      | none => exact absurd hv h2
      | some p =>
        refine ⟨[("default",
          { backend := "channels_redis.core.RedisChannelLayer",
            hosts := [((env "REDIS_HOST").getD "redis", p)] })], ?_⟩
        simp [channelLayersSettings, henv, hv]

/-- Witness for `redis_port_int_guard`: `REDIS_PORT="abc"` fails the
load, and the well-formed default environment loads. -/
theorem redis_port_int_guard_witness :
    pyInt "abc" = none ∧
    channelLayersSettings (fun k => if k = "REDIS_PORT" then some "abc" else none) =
      Except.error "ValueError" :=
  ⟨by decide,
   (redis_port_int_guard (fun k => if k = "REDIS_PORT" then some "abc" else none) "abc").1
     (by decide) (by decide)⟩

/-- One backoff step below the cap doubles the delay; the closed form of
the iterated doubling from the 200 ms base. -/
theorem backoffDelay_succ (n : Nat) :
    backoffDelay (n + 1) = min (200 * 2 ^ n) 5000 := by
  induction n with
  | zero => decide
  | succ k ih =>
    show nextDelay (backoffDelay (k + 1)) = _
    rw [ih]
    unfold nextDelay
    rw [pow_succ]
    have h2 : 0 < 2 ^ k := Nat.pos_pow_of_pos k (by norm_num)
    omega

/-- C8: the delay before the n-th reconnection attempt is
`min (200 * 2^(n-1), 5000)` ms, and six consecutive failures produce the
delays 200, 400, 800, 1600, 3200, 5000 ms. -/
theorem backoff_sequence (n : Nat) (h : 1 ≤ n) :
    backoffDelay n = min (200 * 2 ^ (n - 1)) 5000 ∧
    [backoffDelay 1, backoffDelay 2, backoffDelay 3,
     backoffDelay 4, backoffDelay 5, backoffDelay 6] =
      [200, 400, 800, 1600, 3200, 5000] := by
  constructor
  · cases n with
    | zero => omega
    | succ m => simpa using backoffDelay_succ m
  · decide

/-- Witness for `backoff_sequence` at the sixth attempt. -/
theorem backoff_sequence_witness :
    (1 ≤ 6 ∧ backoffDelay 6 = min (200 * 2 ^ (6 - 1)) 5000) ∧
    [backoffDelay 1, backoffDelay 2, backoffDelay 3,
     backoffDelay 4, backoffDelay 5, backoffDelay 6] =
      [200, 400, 800, 1600, 3200, 5000] :=
  ⟨⟨by decide, (backoff_sequence 6 (by decide)).1⟩, (backoff_sequence 6 (by decide)).2⟩

/-- The member snapshot of the room at the head entry. -/
theorem membersOf_cons_self (r : String) (ms : List Nat) (rest : Registry) :
    membersOf ((r, ms) :: rest) r = ms := by
  simp [membersOf, List.lookup]

/-- A head entry for a different room does not affect the snapshot. -/
theorem membersOf_cons_ne (k r : String) (hk : k ≠ r) (ms : List Nat)
    (rest : Registry) : membersOf ((k, ms) :: rest) r = membersOf rest r := by
  have hb : (r == k) = false := beq_eq_false_iff_ne.mpr (Ne.symm hk)
  simp [membersOf, List.lookup, hb]

/-- Unfolding `leave` at a head entry for the same room. -/
theorem leave_cons_self (k : String) (c : Nat) (ms : List Nat)
    (rest : Registry) :
    leave k c ((k, ms) :: rest) =
      (if ms.filter (fun x => x ≠ c) = [] then leave k c rest
       else (k, ms.filter (fun x => x ≠ c)) :: leave k c rest) := by
  simp [leave]

/-- Unfolding `leave` at a head entry for a different room. -/
theorem leave_cons_ne (k r : String) (hk : k ≠ r) (c : Nat) (ms : List Nat)
    (rest : Registry) :
    leave r c ((k, ms) :: rest) = (k, ms) :: leave r c rest := by
  simp [leave, hk]

/-- `leave` does not touch a registry that has no entry for the room. -/
theorem leave_of_not_key (r : String) (c : Nat) (reg : Registry)
    (h : ∀ p ∈ reg, p.1 ≠ r) : leave r c reg = reg := by
  induction reg with
  | nil => rfl
  | cons p rest ih =>
    obtain ⟨k, ms⟩ := p
    have hk : k ≠ r := h (k, ms) (List.mem_cons_self _ _)
    rw [leave_cons_ne k r hk, ih (fun q hq => h q (List.mem_cons_of_mem _ hq))]

/-- The keys of the tail of a registry with nodup keys avoid the head key. -/
theorem not_key_of_nodup (k : String) (rest : Registry)
    (hnd : k ∉ List.map Prod.fst rest) : ∀ q ∈ rest, q.1 ≠ k := by
  intro q hq he
  apply hnd
  rw [← he]
  exact List.mem_map_of_mem Prod.fst hq

/-- Undoing a fresh `joinAdd` with `leave` restores a well-formed
registry in which the connection was not yet a member. -/
theorem leave_joinAdd (r : String) (c : Nat) (reg : Registry)
    (hw : WFReg reg) (hm : c ∉ membersOf reg r) :
    leave r c (joinAdd r c reg) = reg := by
  induction reg with
  | nil =>
    simp [joinAdd, leave]
  | cons p rest ih =>
    obtain ⟨k, ms⟩ := p
    obtain ⟨hnd, hne⟩ := hw
    rw [List.map_cons, List.nodup_cons] at hnd
    by_cases hk : k = r
    · subst hk
      rw [membersOf_cons_self] at hm
      have hja : joinAdd k c ((k, ms) :: rest) = (k, ms ++ [c]) :: rest := by
        simp [joinAdd, hm]
      rw [hja]
      have hfilter : (ms ++ [c]).filter (fun x => x ≠ c) = ms := by
        rw [List.filter_append]
        have h1 : ms.filter (fun x => x ≠ c) = ms :=
          List.filter_eq_self.mpr
            (fun a ha => decide_eq_true (fun e => hm (e ▸ ha)))
        have h2 : [c].filter (fun x => x ≠ c) = [] := by simp
        rw [h1, h2, List.append_nil]
      have hms : ms ≠ [] := hne (k, ms) (List.mem_cons_self _ _)
      rw [leave_cons_self, hfilter, if_neg hms,
        leave_of_not_key _ _ _ (not_key_of_nodup k rest hnd.1)]
    · rw [membersOf_cons_ne k r hk] at hm
      have hja : joinAdd r c ((k, ms) :: rest) = (k, ms) :: joinAdd r c rest := by
        simp [joinAdd, hk]
      rw [hja, leave_cons_ne k r hk,
        ih ⟨hnd.2, fun q hq => hne q (List.mem_cons_of_mem _ hq)⟩ hm]

/-- `leave` is idempotent on every registry state. -/
theorem leave_idem (r : String) (c : Nat) (reg : Registry) :
    leave r c (leave r c reg) = leave r c reg := by
  induction reg with
  | nil => rfl
  | cons p rest ih =>
    obtain ⟨k, ms⟩ := p
    by_cases hk : k = r
    · subst hk
      rw [leave_cons_self]
      by_cases he : ms.filter (fun x => x ≠ c) = []
      · rw [if_pos he]
        exact ih
      · rw [if_neg he]
        have hf2 : (ms.filter (fun x => x ≠ c)).filter (fun x => x ≠ c) =
            ms.filter (fun x => x ≠ c) :=
          List.filter_eq_self.mpr (fun a ha => (List.mem_filter.mp ha).2)
        have he2 : ¬ (ms.filter (fun x => x ≠ c)).filter (fun x => x ≠ c) = [] := by
          rw [hf2]; exact he
        rw [leave_cons_self, hf2, if_neg (hf2 ▸ he), ih]
    · rw [leave_cons_ne k r hk, leave_cons_ne k r hk, ih]

/-- `leave` for a non-member changes nothing in a well-formed registry. -/
theorem leave_noop (r : String) (c : Nat) (reg : Registry)
    (hw : WFReg reg) (hm : c ∉ membersOf reg r) : leave r c reg = reg := by
  induction reg with
  | nil => rfl
  | cons p rest ih =>
    obtain ⟨k, ms⟩ := p
    obtain ⟨hnd, hne⟩ := hw
    rw [List.map_cons, List.nodup_cons] at hnd
    by_cases hk : k = r
    · subst hk
      rw [membersOf_cons_self] at hm
      have hf : ms.filter (fun x => x ≠ c) = ms :=
        List.filter_eq_self.mpr
          (fun a ha => decide_eq_true (fun e => hm (e ▸ ha)))
      have hms : ms ≠ [] := hne (k, ms) (List.mem_cons_self _ _)
      rw [leave_cons_self, hf, if_neg hms,
        leave_of_not_key _ _ _ (not_key_of_nodup k rest hnd.1)]
    · rw [membersOf_cons_ne k r hk] at hm
      rw [leave_cons_ne k r hk,
        ih ⟨hnd.2, fun q hq => hne q (List.mem_cons_of_mem _ hq)⟩ hm]

/-- C4 counterexample: with a valid room name and a state in which the
connection is already a member, `join` (idempotent for members) followed
by `leave` does not restore the pre-join state — the room entry is
deleted instead. -/
theorem join_leave_cx :
    validRoomName "lobby" = true ∧
    WFReg [("lobby", [1])] ∧
    join "lobby" 1 [("lobby", [1])] = Except.ok [("lobby", [1])] ∧
    leave "lobby" 1 [("lobby", [1])] = [] ∧
    ([] : Registry) ≠ [("lobby", [1])] := by
  refine ⟨by decide, by decide, ?_, by decide, by decide⟩
  simp [join, joinAdd]
  decide

/-- C4 (amended): for every valid room name and every well-formed
registry state in which the connection is not yet a member of the room,
`join` succeeds and an immediate `leave` restores the pre-join state, so
no empty-room entry remains. -/
theorem join_then_leave_restores (r : String) (c : Nat) (reg : Registry)
    (hv : validRoomName r = true) (hw : WFReg reg)
    (hm : c ∉ membersOf reg r) :
    ∃ reg2, join r c reg = Except.ok reg2 ∧ leave r c reg2 = reg :=
  ⟨joinAdd r c reg, by simp [join, hv], leave_joinAdd r c reg hw hm⟩

/-- Witness for `join_then_leave_restores` on the empty registry. -/
theorem join_then_leave_restores_witness :
    (validRoomName "lobby" = true ∧ WFReg [] ∧ 1 ∉ membersOf [] "lobby") ∧
    ∃ reg2, join "lobby" 1 [] = Except.ok reg2 ∧ leave "lobby" 1 reg2 = [] :=
  ⟨⟨by decide, by decide, by decide⟩,
   join_then_leave_restores "lobby" 1 [] (by decide) (by decide) (by decide)⟩

/-- C5: `leave` is idempotent — a second identical `leave` changes
nothing — and total and a no-op for a non-member: it never fails, and on
a well-formed registry whose room does not contain the connection it
returns the state unchanged. -/
theorem leave_idempotent_noop (reg : Registry) (r : String) (c : Nat)
    (hw : WFReg reg) :
    leave r c (leave r c reg) = leave r c reg ∧
    (c ∉ membersOf reg r → leave r c reg = reg) :=
  ⟨leave_idem r c reg, fun hm => leave_noop r c reg hw hm⟩

/-- Witness for `leave_idempotent_noop`: a non-member `leave` on a
concrete one-room registry. -/
theorem leave_idempotent_noop_witness :
    WFReg [("lobby", [1, 2])] ∧
    (leave "lobby" 5 (leave "lobby" 5 [("lobby", [1, 2])]) =
      leave "lobby" 5 [("lobby", [1, 2])]) ∧
    (5 ∉ membersOf [("lobby", [1, 2])] "lobby") ∧
    leave "lobby" 5 [("lobby", [1, 2])] = [("lobby", [1, 2])] :=
  ⟨by decide,
   (leave_idempotent_noop [("lobby", [1, 2])] "lobby" 5 (by decide)).1,
   by decide,
   (leave_idempotent_noop [("lobby", [1, 2])] "lobby" 5 (by decide)).2 (by decide)⟩

/-- The handler snapshot of a well-formed subscription table has no
duplicates. -/
theorem membersOf_nodup (subs : Subs) (r : String) (hw : WFSubs subs) :
    (membersOf subs r).Nodup := by
  induction subs with
  | nil => simp [membersOf]
  | cons p rest ih =>
    obtain ⟨k, ms⟩ := p
    by_cases hk : k = r
    · subst hk
      rw [membersOf_cons_self]
      exact hw (k, ms) (List.mem_cons_self _ _)
    · rw [membersOf_cons_ne k r hk]
      exact ih (fun q hq => hw q (List.mem_cons_of_mem _ hq))

/-- Counting one handler's deliveries in a fan-out list counts the
handler in the handler list. -/
theorem count_map_pair (h : Nat) (m : Message) (l : List Nat) :
    ((l.map (fun x => (x, m))).count (h, m)) = l.count h := by
  induction l with
  | nil => rfl
  | cons a t ih =>
    by_cases hha : h = a
    · subst hha
      simp [List.count_cons, ih]
    · simp [List.count_cons, ih, hha]

/-- C7: publishing a message to a room delivers it to exactly the
handlers subscribed at delivery time — every delivery goes to a
subscribed handler with the published message, each subscribed handler
receives it exactly once, an unsubscribed handler receives nothing, and
the number of deliveries is the number of subscribers. -/
theorem fanout_delivers_exactly_once (subs : Subs) (r : String)
    (m : Message) (hw : WFSubs subs) :
    (∀ p ∈ fanout subs r m, p.2 = m ∧ p.1 ∈ membersOf subs r) ∧
    (∀ h, h ∈ membersOf subs r → (fanout subs r m).count (h, m) = 1) ∧
    (∀ h, h ∉ membersOf subs r → (fanout subs r m).count (h, m) = 0) ∧
    (fanout subs r m).length = (membersOf subs r).length := by
  refine ⟨?_, ?_, ?_, by simp [fanout]⟩
  · intro p hp
    unfold fanout at hp
    obtain ⟨x, hx, he⟩ := List.mem_map.mp hp
    rw [← he]
    exact ⟨rfl, hx⟩
  · intro h hh
    unfold fanout
    rw [count_map_pair]
    exact List.count_eq_one_of_mem (membersOf_nodup subs r hw) hh
  · intro h hh
    unfold fanout
    rw [count_map_pair]
    exact List.count_eq_zero_of_not_mem hh

/-- Witness for `fanout_delivers_exactly_once` on a two-subscriber room. -/
theorem fanout_delivers_exactly_once_witness :
    WFSubs [("lobby", [1, 2])] ∧
    2 ∈ membersOf [("lobby", [1, 2])] "lobby" ∧
    (fanout [("lobby", [1, 2])] "lobby"
      { roomName := "lobby", sender := 1, payload := "hi", timestamp := 0 }).count
        (2, { roomName := "lobby", sender := 1, payload := "hi", timestamp := 0 }) = 1 :=
  ⟨by decide, by decide,
   (fanout_delivers_exactly_once [("lobby", [1, 2])] "lobby"
     { roomName := "lobby", sender := 1, payload := "hi", timestamp := 0 }
     (by decide)).2.1 2 (by decide)⟩

/-- An absent room has the empty snapshot. -/
theorem membersOf_of_not_key (r : String) (reg : Registry)
    (h : ∀ p ∈ reg, p.1 ≠ r) : membersOf reg r = [] := by
  induction reg with
  | nil => rfl
  | cons p rest ih =>
    obtain ⟨k, ms⟩ := p
    rw [membersOf_cons_ne k r (h (k, ms) (List.mem_cons_self _ _))]
    exact ih (fun q hq => h q (List.mem_cons_of_mem _ hq))

/-- Membership after `joinAdd`: the old members plus the joining
connection in its room. -/
theorem mem_membersOf_joinAdd (r r2 : String) (c c2 : Nat) (reg : Registry) :
    c2 ∈ membersOf (joinAdd r c reg) r2 ↔
      (c2 ∈ membersOf reg r2 ∨ (r2 = r ∧ c2 = c)) := by
  induction reg with
  | nil =>
    by_cases h2 : r2 = r
    · subst h2
      show c2 ∈ membersOf [(r2, [c])] r2 ↔ _
      rw [membersOf_cons_self]
      simp [membersOf]
    · show c2 ∈ membersOf [(r, [c])] r2 ↔ _
      rw [membersOf_cons_ne r r2 (fun e => h2 e.symm)]
      simp [membersOf, h2]
  | cons p rest ih =>
    obtain ⟨k, ms⟩ := p
    by_cases hk : k = r
    · subst hk
      by_cases hc : c ∈ ms
      · have hja : joinAdd k c ((k, ms) :: rest) = (k, ms) :: rest := by
          simp [joinAdd, hc]
        rw [hja]
        by_cases h2 : r2 = k
        · subst h2
          rw [membersOf_cons_self]
          constructor
          · exact fun h => Or.inl h
          · rintro (h | ⟨-, h⟩)
            · exact h
            · exact h ▸ hc
        · rw [membersOf_cons_ne k r2 (fun e => h2 e.symm)]
          simp [h2]
      · have hja : joinAdd k c ((k, ms) :: rest) = (k, ms ++ [c]) :: rest := by
          simp [joinAdd, hc]
        rw [hja]
        by_cases h2 : r2 = k
        · subst h2
          rw [membersOf_cons_self, membersOf_cons_self]
          simp
        · rw [membersOf_cons_ne k r2 (fun e => h2 e.symm),
            membersOf_cons_ne k r2 (fun e => h2 e.symm)]
          simp [h2]
    · have hja : joinAdd r c ((k, ms) :: rest) = (k, ms) :: joinAdd r c rest := by
        simp [joinAdd, hk]
      rw [hja]
      by_cases h2 : r2 = k
      · subst h2
        rw [membersOf_cons_self, membersOf_cons_self]
        have : ¬(r2 = r ∧ c2 = c) := fun he => hk he.1
        simp [this]
      · rw [membersOf_cons_ne k r2 (fun e => h2 e.symm),
          membersOf_cons_ne k r2 (fun e => h2 e.symm)]
        exact ih

/-- Membership after `leave` on a registry with nodup keys: the old
members minus the leaving connection in its room. -/
theorem mem_membersOf_leave (r r2 : String) (c c2 : Nat) (reg : Registry)
    (hnd : (List.map Prod.fst reg).Nodup) :
    c2 ∈ membersOf (leave r c reg) r2 ↔
      (c2 ∈ membersOf reg r2 ∧ ¬(r2 = r ∧ c2 = c)) := by
  induction reg with
  | nil => simp [leave, membersOf]
  | cons p rest ih =>
    obtain ⟨k, ms⟩ := p
    rw [List.map_cons, List.nodup_cons] at hnd
    by_cases hk : k = r
    · subst hk
      rw [leave_cons_self]
      have hrest : leave k c rest = rest :=
        leave_of_not_key _ _ _ (not_key_of_nodup k rest hnd.1)
      by_cases h2 : r2 = k
      · subst h2
        have hnil : membersOf rest r2 = [] :=
          membersOf_of_not_key _ _ (not_key_of_nodup r2 rest hnd.1)
        rw [membersOf_cons_self]
        by_cases he : ms.filter (fun x => x ≠ c) = []
        · rw [if_pos he, hrest, hnil]
          constructor
          · intro h; cases h
          · rintro ⟨hmem, hno⟩
            have : c2 ∈ ms.filter (fun x => x ≠ c) := by
              rw [List.mem_filter]
              exact ⟨hmem, decide_eq_true (fun e => hno ⟨rfl, e⟩)⟩
            rw [he] at this
            cases this
        · rw [if_neg he, membersOf_cons_self, List.mem_filter]
          constructor
          · rintro ⟨hmem, hdec⟩
            exact ⟨hmem, fun ⟨_, hc⟩ => by
              rw [hc] at hdec
              simp at hdec⟩
          · rintro ⟨hmem, hno⟩
            exact ⟨hmem, decide_eq_true (fun e => hno ⟨rfl, e⟩)⟩
      · have hne2 : ¬(r2 = k ∧ c2 = c) := fun ⟨e, _⟩ => h2 e
        rw [membersOf_cons_ne k r2 (fun e => h2 e.symm)]
        by_cases he : ms.filter (fun x => x ≠ c) = []
        · rw [if_pos he, hrest]
          simp [hne2]
        · rw [if_neg he, membersOf_cons_ne k r2 (fun e => h2 e.symm), hrest]
          simp [hne2]
    · rw [leave_cons_ne k r hk]
      by_cases h2 : r2 = k
      · subst h2
        rw [membersOf_cons_self, membersOf_cons_self]
        have : ¬(r2 = r ∧ c2 = c) := fun he => hk he.1
        simp [this]
      · rw [membersOf_cons_ne k r2 (fun e => h2 e.symm),
          membersOf_cons_ne k r2 (fun e => h2 e.symm)]
        exact ih hnd.2

/-- `joinAdd` either keeps the key list or appends the new room key. -/
theorem keys_joinAdd (r : String) (c : Nat) (reg : Registry) :
    List.map Prod.fst (joinAdd r c reg) = List.map Prod.fst reg ∨
    (List.map Prod.fst (joinAdd r c reg) = List.map Prod.fst reg ++ [r] ∧
      r ∉ List.map Prod.fst reg) := by
  induction reg with
  | nil =>
    right
    constructor
    · simp [joinAdd]
    · simp
  | cons p rest ih =>
    obtain ⟨k, ms⟩ := p
    by_cases hk : k = r
    · subst hk
      by_cases hc : c ∈ ms
      · left; simp [joinAdd, hc]
      · left; simp [joinAdd, hc]
    · have hja : joinAdd r c ((k, ms) :: rest) = (k, ms) :: joinAdd r c rest := by
        simp [joinAdd, hk]
      rw [hja, List.map_cons, List.map_cons]
      rcases ih with h | ⟨h, hnin⟩
      · left; rw [h]
      · right
        constructor
        · rw [h, List.cons_append]
        · rw [List.mem_cons]
          rintro (h | h)
          · exact hk h.symm
          · exact hnin h

/-- `joinAdd` preserves registry well-formedness. -/
theorem WFReg_joinAdd (r : String) (c : Nat) (reg : Registry)
    (hw : WFReg reg) : WFReg (joinAdd r c reg) := by
  induction reg with
  | nil =>
    constructor
    · simp [joinAdd]
    · intro p hp
      simp only [joinAdd, List.mem_singleton] at hp
      subst hp
      simp
  | cons p rest ih =>
    obtain ⟨k, ms⟩ := p
    obtain ⟨hnd, hne⟩ := hw
    rw [List.map_cons, List.nodup_cons] at hnd
    by_cases hk : k = r
    · subst hk
      by_cases hc : c ∈ ms
      · have hja : joinAdd k c ((k, ms) :: rest) = (k, ms) :: rest := by
          simp [joinAdd, hc]
        rw [hja]
        exact ⟨by rw [List.map_cons, List.nodup_cons]; exact hnd, hne⟩
      · have hja : joinAdd k c ((k, ms) :: rest) = (k, ms ++ [c]) :: rest := by
          simp [joinAdd, hc]
        rw [hja]
        constructor
        · rw [List.map_cons, List.nodup_cons]
          exact hnd
        · intro p hp
          rcases List.mem_cons.mp hp with hp | hp
          · subst hp; simp
          · exact hne p (List.mem_cons_of_mem _ hp)
    · have hja : joinAdd r c ((k, ms) :: rest) = (k, ms) :: joinAdd r c rest := by
        simp [joinAdd, hk]
      rw [hja]
      have ihw := ih ⟨hnd.2, fun q hq => hne q (List.mem_cons_of_mem _ hq)⟩
      constructor
      · rw [List.map_cons, List.nodup_cons]
        refine ⟨?_, ihw.1⟩
        intro hkin
        rcases keys_joinAdd r c rest with hkeys | ⟨hkeys, -⟩
        · rw [hkeys] at hkin
          exact hnd.1 hkin
        · rw [hkeys] at hkin
          rcases List.mem_append.mp hkin with h | h
          · exact hnd.1 h
          · rw [List.mem_singleton] at h
            exact hk h
      · intro p hp
        rcases List.mem_cons.mp hp with hp | hp
        · subst hp
          exact hne (k, ms) (List.mem_cons_self _ _)
        · exact ihw.2 p hp

/-- `leave` only removes keys, so the key list stays a sublist. -/
theorem keys_leave_sublist (r : String) (c : Nat) (reg : Registry) :
    List.Sublist (List.map Prod.fst (leave r c reg)) (List.map Prod.fst reg) := by
  induction reg with
  | nil => exact List.Sublist.refl _
  | cons p rest ih =>
    obtain ⟨k, ms⟩ := p
    by_cases hk : k = r
    · subst hk
      rw [leave_cons_self]
      by_cases he : ms.filter (fun x => x ≠ c) = []
      · rw [if_pos he]
        exact ih.trans (List.sublist_cons_self _ _)
      · rw [if_neg he, List.map_cons, List.map_cons]
        exact ih.cons₂ _
    · rw [leave_cons_ne k r hk, List.map_cons, List.map_cons]
      exact ih.cons₂ _

/-- `leave` keeps every remaining member set nonempty. -/
theorem leave_entries (r : String) (c : Nat) (reg : Registry)
    (hne : ∀ p ∈ reg, p.2 ≠ []) : ∀ p ∈ leave r c reg, p.2 ≠ [] := by
  induction reg with
  | nil => intro p hp; cases hp
  | cons q rest ih =>
    obtain ⟨k, ms⟩ := q
    have hrest : ∀ p ∈ rest, p.2 ≠ [] :=
      fun q hq => hne q (List.mem_cons_of_mem _ hq)
    by_cases hk : k = r
    · subst hk
      rw [leave_cons_self]
      by_cases he : ms.filter (fun x => x ≠ c) = []
      · rw [if_pos he]
        exact ih hrest
      · rw [if_neg he]
        intro p hp
        rcases List.mem_cons.mp hp with hp | hp
        · subst hp; exact he
        · exact ih hrest p hp
    · rw [leave_cons_ne k r hk]
      intro p hp
      rcases List.mem_cons.mp hp with hp | hp
      · subst hp; exact hne (k, ms) (List.mem_cons_self _ _)
      · exact ih hrest p hp

/-- `leave` preserves registry well-formedness. -/
theorem WFReg_leave (r : String) (c : Nat) (reg : Registry)
    (hw : WFReg reg) : WFReg (leave r c reg) :=
  ⟨hw.1.sublist (keys_leave_sublist r c reg), leave_entries r c reg hw.2⟩

/-- Every transition preserves the system invariant. -/
theorem step_preserves_inv (s t : SysState) (hst : Step s t)
    (hi : InvS s) : InvS t := by
  obtain ⟨hw, hmem⟩ := hi
  cases hst with
  | startConnect c r h =>
    refine ⟨hw, ?_⟩
    intro r2 c2 hc2
    obtain ⟨st, hs, ho⟩ := hmem r2 c2 hc2
    have hne : c2 ≠ c := by
      intro he
      rw [he, h] at hs
      exact Option.noConfusion hs
    refine ⟨st, ?_, ho⟩
    show (if c2 = c then some (SessionState.CONNECTING, r) else s.sessions c2) =
      some (st, r2)
    rw [if_neg hne, hs]
  | openOk c r h hv =>
    refine ⟨WFReg_joinAdd r c s.registry hw, ?_⟩
    intro r2 c2 hc2
    rw [show SysState.registry
        { sessions := fun x => if x = c then some (SessionState.OPEN, r) else s.sessions x,
          registry := joinAdd r c s.registry, subs := joinAdd r c s.subs } =
        joinAdd r c s.registry from rfl,
      mem_membersOf_joinAdd] at hc2
    rcases hc2 with hc2 | ⟨hr, hc⟩
    · obtain ⟨st, hs, ho⟩ := hmem r2 c2 hc2
      have hne : c2 ≠ c := by
        intro he
        rw [he, h] at hs
        injection hs with hp
        injection hp with h1 h2
        rcases ho with h3 | h3 <;> rw [← h1] at h3 <;> exact SessionState.noConfusion h3
      refine ⟨st, ?_, ho⟩
      show (if c2 = c then some (SessionState.OPEN, r) else s.sessions c2) =
        some (st, r2)
      rw [if_neg hne, hs]
    · subst hr
      subst hc
      refine ⟨SessionState.OPEN, ?_, Or.inl rfl⟩
      show (if c2 = c2 then some (SessionState.OPEN, r2) else s.sessions c2) =
        some (SessionState.OPEN, r2)
      rw [if_pos rfl]
  | openFail c r h =>
    refine ⟨WFReg_leave r c s.registry hw, ?_⟩
    intro r2 c2 hc2
    rw [show SysState.registry
        { sessions := fun x => if x = c then some (SessionState.CLOSED, r) else s.sessions x,
          registry := leave r c s.registry, subs := leave r c s.subs } =
        leave r c s.registry from rfl,
      mem_membersOf_leave r r2 c c2 s.registry hw.1] at hc2
    obtain ⟨hc2, hno⟩ := hc2
    obtain ⟨st, hs, ho⟩ := hmem r2 c2 hc2
    have hne : c2 ≠ c := by
      intro he
      rw [he, h] at hs
      injection hs with hp
      injection hp with h1 h2
      rcases ho with h3 | h3 <;> rw [← h1] at h3 <;> exact SessionState.noConfusion h3
    refine ⟨st, ?_, ho⟩
    show (if c2 = c then some (SessionState.CLOSED, r) else s.sessions c2) =
      some (st, r2)
    rw [if_neg hne, hs]
  | closeReq c r h =>
    refine ⟨hw, ?_⟩
    intro r2 c2 hc2
    obtain ⟨st, hs, ho⟩ := hmem r2 c2 hc2
    by_cases he : c2 = c
    · subst he
      rw [h] at hs
      injection hs with hp
      injection hp with h1 h2
      refine ⟨SessionState.CLOSING, ?_, Or.inr rfl⟩
      show (if c2 = c2 then some (SessionState.CLOSING, r) else s.sessions c2) =
        some (SessionState.CLOSING, r2)
      rw [if_pos rfl, h2]
    · refine ⟨st, ?_, ho⟩
      show (if c2 = c then some (SessionState.CLOSING, r) else s.sessions c2) =
        some (st, r2)
      rw [if_neg he, hs]
  | finishClose c r h =>
    refine ⟨WFReg_leave r c s.registry hw, ?_⟩
    intro r2 c2 hc2
    rw [show SysState.registry
        { sessions := fun x => if x = c then some (SessionState.CLOSED, r) else s.sessions x,
          registry := leave r c s.registry, subs := leave r c s.subs } =
        leave r c s.registry from rfl,
      mem_membersOf_leave r r2 c c2 s.registry hw.1] at hc2
    obtain ⟨hc2, hno⟩ := hc2
    obtain ⟨st, hs, ho⟩ := hmem r2 c2 hc2
    have hne : c2 ≠ c := by
      intro he
      rw [he, h] at hs
      injection hs with hp
      injection hp with h1 h2
      exact hno ⟨h2.symm, he⟩
    refine ⟨st, ?_, ho⟩
    show (if c2 = c then some (SessionState.CLOSED, r) else s.sessions c2) =
      some (st, r2)
    rw [if_neg hne, hs]

/-- Every reachable system state satisfies the invariant. -/
theorem reachable_inv (s : SysState) (h : Reachable s) : InvS s := by
  unfold Reachable at h
  induction h with
  | refl =>
    refine ⟨⟨List.nodup_nil, ?_⟩, ?_⟩
    · intro p hp; cases hp
    · intro r c hc
      simp [initState, membersOf, List.lookup] at hc
  | tail hab hbc ih => exact step_preserves_inv _ _ hbc ih

/-- C6: in every reachable state, no room's membership set contains a
CLOSED connection — entering CLOSED performs the registry `leave` (and
bridge unsubscribe) in the same transition, and CLOSED is terminal, so
the cleanup runs exactly once and cleaned connections never linger. -/
theorem no_closed_member (s : SysState) (r : String) (c : Nat)
    (hs : Reachable s) (hm : c ∈ membersOf s.registry r) :
    ∃ st r2, s.sessions c = some (st, r2) ∧ st ≠ SessionState.CLOSED := by
  obtain ⟨-, hmem⟩ := reachable_inv s hs
  obtain ⟨st, hss, ho⟩ := hmem r c hm
  refine ⟨st, r, hss, ?_⟩
  rcases ho with h | h <;> subst h <;> intro hcl <;> exact SessionState.noConfusion hcl

/-- Witness for `no_closed_member`: the two-step run that connects and
opens connection 0 into room "lobby". -/
theorem no_closed_member_witness :
    Reachable demoState2 ∧ 0 ∈ membersOf demoState2.registry "lobby" ∧
    ∃ st r2, demoState2.sessions 0 = some (st, r2) ∧
      st ≠ SessionState.CLOSED := by
  have h1 : Step initState demoState1 :=
    Step.startConnect initState 0 "lobby" rfl
  have h2 : Step demoState1 demoState2 :=
    Step.openOk demoState1 0 "lobby" rfl (by decide)
  have hr : Reachable demoState2 :=
    Relation.ReflTransGen.head h1 (Relation.ReflTransGen.single h2)
  exact ⟨hr, by decide, no_closed_member demoState2 "lobby" 0 hr (by decide)⟩

/-- `hexVal` inverts `hexDigitChar` on one digit. -/
theorem hexVal_hexDigitChar (n : Nat) (h : n < 16) :
    hexVal (hexDigitChar n) = some n := by
  interval_cases n <;> decide

/-- Unicode scalar values: below the surrogate block or between it and
`0x110000`. -/
theorem char_valid_nat (c : Char) :
    c.toNat < 0xD800 ∨ (0xE000 ≤ c.toNat ∧ c.toNat < 0x110000) := by
  have h := c.valid
  unfold UInt32.isValidChar Nat.isValidChar at h
  rcases h with h | ⟨h1, h2⟩
  · left; exact_mod_cast h
  · right
    constructor
    · exact_mod_cast h1
    · exact_mod_cast h2

/-- `decodeU` inverts `hex4` below `0x10000`. -/
theorem decodeU_hex4 (n : Nat) (h : n < 65536) :
    decodeU (hexDigitChar (n / 4096 % 16)) (hexDigitChar (n / 256 % 16))
      (hexDigitChar (n / 16 % 16)) (hexDigitChar (n % 16)) = some n := by
  have h1 := hexVal_hexDigitChar (n / 4096 % 16) (Nat.mod_lt _ (by norm_num))
  have h2 := hexVal_hexDigitChar (n / 256 % 16) (Nat.mod_lt _ (by norm_num))
  have h3 := hexVal_hexDigitChar (n / 16 % 16) (Nat.mod_lt _ (by norm_num))
  have h4 := hexVal_hexDigitChar (n % 16) (Nat.mod_lt _ (by norm_num))
  unfold decodeU
  rw [h1, h2, h3, h4]
  show some (n / 4096 % 16 * 4096 + n / 256 % 16 * 256 + n / 16 % 16 * 16 + n % 16) =
    some n
  exact congrArg some (by omega)

/-- The one-step unfolding of the scanner on a nonempty input. -/
theorem scanString_cons (c : Char) (rest : List Char) :
    scanString (c :: rest) =
      (if c = '"' then if rest = [] then some [] else none
      else
        if c = '\\' then
          match rest with
          | [] => none
          | e :: rest2 =>
            if e = 'u' then
              match uEsc rest2 with
              | some (ch, k) => Option.map (fun t => ch :: t) (scanString (rest2.drop k))
              | none => none
            else
              match escChar e with
              | some d => Option.map (fun t => d :: t) (scanString rest2)
              | none => none
        else if c.toNat < 32 then none
        else Option.map (fun t => c :: t) (scanString rest)) := by
  rw [scanString.eq_def]

/-- The scanner at a closing quote. -/
theorem scanString_quote (rest : List Char) :
    scanString ('"' :: rest) = (if rest = [] then some [] else none) := by
  rw [scanString_cons, if_pos rfl]

/-- The scanner after a backslash. -/
theorem scanString_bs (e : Char) (rest2 : List Char) :
    scanString ('\\' :: e :: rest2) =
      (if e = 'u' then
        match uEsc rest2 with
        | some (ch, k) => Option.map (fun t => ch :: t) (scanString (rest2.drop k))
        | none => none
      else
        match escChar e with
        | some d => Option.map (fun t => d :: t) (scanString rest2)
        | none => none) := by
  rw [scanString_cons]
  rfl

/-- The scanner on a literal (unescaped, non-control) character. -/
theorem scanString_lit (c : Char) (rest : List Char) (h1 : c ≠ '"')
    (h2 : c ≠ '\\') (h3 : ¬ c.toNat < 0x20) :
    scanString (c :: rest) = (scanString rest).map (fun t => c :: t) := by
  rw [scanString_cons, if_neg h1, if_neg h2, if_neg h3]

/-- The scanner on a two-character escape. -/
theorem scanString_esc (e d : Char) (rest : List Char)
    (hu : e ≠ 'u') (hd : escChar e = some d) :
    scanString ('\\' :: e :: rest) = (scanString rest).map (fun t => d :: t) := by
  rw [scanString_bs, if_neg hu, hd]

/-- The scanner on a `\uXXXX` escape. -/
theorem scanString_u (rest2 : List Char) (ch : Char) (k : Nat)
    (hu : uEsc rest2 = some (ch, k)) :
    scanString ('\\' :: 'u' :: rest2) =
      (scanString (rest2.drop k)).map (fun t => ch :: t) := by
  rw [scanString_bs, if_pos rfl, hu]

/-- `uEsc` decodes the `hex4` encoding of a BMP character. -/
theorem uEsc_hex4_bmp (c : Char) (rest : List Char)
    (hlt : c.toNat < 0x10000) :
    uEsc (hex4 c.toNat ++ rest) = some (c, 4) := by
  have hv := char_valid_nat c
  have happ : hex4 c.toNat ++ rest =
      hexDigitChar (c.toNat / 4096 % 16) :: hexDigitChar (c.toNat / 256 % 16) ::
      hexDigitChar (c.toNat / 16 % 16) :: hexDigitChar (c.toNat % 16) :: rest := rfl
  rw [happ, uEsc, decodeU_hex4 c.toNat hlt, Option.some_bind,
    if_pos (by omega : c.toNat < 0xD800 ∨ 0xE000 ≤ c.toNat), Char.ofNat_toNat]

/-- `uEsc` decodes the surrogate-pair encoding of an astral character. -/
theorem uEsc_hex4_pair (c : Char) (rest : List Char)
    (hge : 0x10000 ≤ c.toNat) :
    uEsc (hex4 (0xD800 + (c.toNat - 0x10000) / 1024) ++
        '\\' :: 'u' :: hex4 (0xDC00 + (c.toNat - 0x10000) % 1024) ++ rest) =
      some (c, 10) := by
  have hv := char_valid_nat c
  have hup : c.toNat < 0x110000 := by omega
  have hdiv : (c.toNat - 0x10000) / 1024 < 1024 := by omega
  have hmod : (c.toNat - 0x10000) % 1024 < 1024 := Nat.mod_lt _ (by norm_num)
  have hhi : 0xD800 + (c.toNat - 0x10000) / 1024 < 65536 := by omega
  have hlo : 0xDC00 + (c.toNat - 0x10000) % 1024 < 65536 := by omega
  rw [show hex4 (0xD800 + (c.toNat - 0x10000) / 1024) ++
        '\\' :: 'u' :: hex4 (0xDC00 + (c.toNat - 0x10000) % 1024) ++ rest =
      hexDigitChar ((0xD800 + (c.toNat - 0x10000) / 1024) / 4096 % 16) ::
      hexDigitChar ((0xD800 + (c.toNat - 0x10000) / 1024) / 256 % 16) ::
      hexDigitChar ((0xD800 + (c.toNat - 0x10000) / 1024) / 16 % 16) ::
      hexDigitChar ((0xD800 + (c.toNat - 0x10000) / 1024) % 16) ::
      '\\' :: 'u' ::
      hexDigitChar ((0xDC00 + (c.toNat - 0x10000) % 1024) / 4096 % 16) ::
      hexDigitChar ((0xDC00 + (c.toNat - 0x10000) % 1024) / 256 % 16) ::
      hexDigitChar ((0xDC00 + (c.toNat - 0x10000) % 1024) / 16 % 16) ::
      hexDigitChar ((0xDC00 + (c.toNat - 0x10000) % 1024) % 16) :: rest from rfl]
  rw [uEsc, decodeU_hex4 _ hhi, Option.some_bind]
  rw [if_neg (by omega :
    ¬(0xD800 + (c.toNat - 0x10000) / 1024 < 0xD800 ∨
      0xE000 ≤ 0xD800 + (c.toNat - 0x10000) / 1024))]
  rw [if_pos (by omega : 0xD800 + (c.toNat - 0x10000) / 1024 < 0xDC00)]
  show (if ('\\' : Char) = '\\' ∧ ('u' : Char) = 'u' then
      (decodeU
        (hexDigitChar ((0xDC00 + (c.toNat - 0x10000) % 1024) / 4096 % 16))
        (hexDigitChar ((0xDC00 + (c.toNat - 0x10000) % 1024) / 256 % 16))
        (hexDigitChar ((0xDC00 + (c.toNat - 0x10000) % 1024) / 16 % 16))
        (hexDigitChar ((0xDC00 + (c.toNat - 0x10000) % 1024) % 16))).bind (fun m =>
        if 0xDC00 ≤ m ∧ m < 0xE000 then
          some (Char.ofNat
            (0x10000 + (0xD800 + (c.toNat - 0x10000) / 1024 - 0xD800) * 1024 +
              (m - 0xDC00)), 10)
        else none)
    else none) = some (c, 10)
  rw [if_pos ⟨rfl, rfl⟩, decodeU_hex4 _ hlo, Option.some_bind]
  rw [if_pos (by omega :
    0xDC00 ≤ 0xDC00 + (c.toNat - 0x10000) % 1024 ∧
      0xDC00 + (c.toNat - 0x10000) % 1024 < 0xE000)]
  have harith : 0x10000 + (0xD800 + (c.toNat - 0x10000) / 1024 - 0xD800) * 1024 +
      (0xDC00 + (c.toNat - 0x10000) % 1024 - 0xDC00) = c.toNat := by omega
  rw [harith, Char.ofNat_toNat]

/-- Scanning the encoding of one character consumes exactly that
encoding and emits exactly that character. -/
theorem scanString_encodeChar (c : Char) (rest : List Char) :
    scanString (encodeChar c ++ rest) = (scanString rest).map (fun t => c :: t) := by
  by_cases h1 : c = '"'
  · subst h1
    rw [show encodeChar '"' ++ rest = '\\' :: '"' :: rest from rfl]
    exact scanString_esc '"' '"' rest (by decide) (by decide)
  by_cases h2 : c = '\\'
  · subst h2
    rw [show encodeChar '\\' ++ rest = '\\' :: '\\' :: rest from rfl]
    exact scanString_esc '\\' '\\' rest (by decide) (by decide)
  by_cases h3 : c = Char.ofNat 8
  · subst h3
    rw [show encodeChar (Char.ofNat 8) ++ rest = '\\' :: 'b' :: rest from rfl]
    exact scanString_esc 'b' (Char.ofNat 8) rest (by decide) (by decide)
  by_cases h4 : c = Char.ofNat 12
  · subst h4
    rw [show encodeChar (Char.ofNat 12) ++ rest = '\\' :: 'f' :: rest from rfl]
    exact scanString_esc 'f' (Char.ofNat 12) rest (by decide) (by decide)
  by_cases h5 : c = Char.ofNat 10
  · subst h5
    rw [show encodeChar (Char.ofNat 10) ++ rest = '\\' :: 'n' :: rest from rfl]
    exact scanString_esc 'n' (Char.ofNat 10) rest (by decide) (by decide)
  by_cases h6 : c = Char.ofNat 13
  · subst h6
    rw [show encodeChar (Char.ofNat 13) ++ rest = '\\' :: 'r' :: rest from rfl]
    exact scanString_esc 'r' (Char.ofNat 13) rest (by decide) (by decide)
  by_cases h7 : c = Char.ofNat 9
  · subst h7
    rw [show encodeChar (Char.ofNat 9) ++ rest = '\\' :: 't' :: rest from rfl]
    exact scanString_esc 't' (Char.ofNat 9) rest (by decide) (by decide)
  by_cases h8 : 0x20 ≤ c.toNat ∧ c.toNat ≤ 0x7e
  · have he : encodeChar c ++ rest = c :: rest := by
      simp [encodeChar, h1, h2, h3, h4, h5, h6, h7, if_pos h8]
    rw [he]
    exact scanString_lit c rest h1 h2 (by omega)
  by_cases h9 : c.toNat < 0x10000
  · have he : encodeChar c ++ rest = '\\' :: 'u' :: (hex4 c.toNat ++ rest) := by
      simp [encodeChar, h1, h2, h3, h4, h5, h6, h7, h8, if_pos h9]
    rw [he, scanString_u _ _ _ (uEsc_hex4_bmp c rest h9),
      show (hex4 c.toNat ++ rest).drop 4 = rest from rfl]
  · have he : encodeChar c ++ rest =
        '\\' :: 'u' :: (hex4 (0xD800 + (c.toNat - 0x10000) / 1024) ++
          '\\' :: 'u' :: hex4 (0xDC00 + (c.toNat - 0x10000) % 1024) ++ rest) := by
      simp [encodeChar, h1, h2, h3, h4, h5, h6, h7, h8, h9]
    rw [he, scanString_u _ _ _ (uEsc_hex4_pair c rest (by omega)),
      show (hex4 (0xD800 + (c.toNat - 0x10000) / 1024) ++
        '\\' :: 'u' :: hex4 (0xDC00 + (c.toNat - 0x10000) % 1024) ++ rest).drop 10 =
        rest from rfl]

/-- Scanning an encoded string up to the closing quote restores it. -/
theorem scanString_encoded (l : List Char) :
    scanString ((l.map encodeChar).flatten ++ ['"']) = some l := by
  induction l with
  | nil =>
    show scanString ('"' :: []) = some []
    rw [scanString_quote, if_pos rfl]
  | cons c t ih =>
    have he : ((c :: t).map encodeChar).flatten ++ ['"'] =
        encodeChar c ++ ((t.map encodeChar).flatten ++ ['"']) := by
      simp
    rw [he, scanString_encodeChar, ih]
    rfl

/-- C9: the room view's context satisfies the JSON round-trip — the
`room_name_json` value is the JSON encoding of the room name, the
`room_name` value is the name itself, and decoding `room_name_json` as
JSON yields the name back (`json.loads(json.dumps(s)) = s`). -/
theorem room_json_roundtrip (s : String) :
    (room s).context.lookup "room_name" = some s ∧
    (room s).context.lookup "room_name_json" = some (dumps s) ∧
    loads (dumps s) = some s := by
  refine ⟨rfl, rfl, ?_⟩
  show (scanString ((s.data.map encodeChar).flatten ++ ['"'])).map
    (fun l => (⟨l⟩ : String)) = some s
  rw [scanString_encoded]
  rfl

end Canal
